import Mathlib

/-!
# A verification model of the onebrrrc aggregation engine

This file shallowly embeds `src/onebrrrc/src/main.rs`: byte buffers are
`List Nat` (byte values 0–255), Rust panics are modelled as `none`, the
`i16` arithmetic of `parse_temp_fast` carries an explicit wrap at `2 ^ 16`,
and the hash tables are modelled as insertion-ordered association lists
whose contents are compared through `tlookup`, i.e. as key→statistics maps.
-/

/-- Wrap an unbounded integer into the signed 16-bit range, modelling Rust
release-mode `i16` overflow semantics. -/
def wrap16 (x : Int) : Int := (x + 32768) % 65536 - 32768

/-- The digit-accumulation loop of `parse_temp_fast` (main.rs 212–221):
every byte other than `'.'` (46) is folded in as `value = value * 10 + digit`
with `i16` arithmetic, where the digit is the wrapping `u8` subtraction
`byte - b'0'`, i.e. `(b + 208) % 256`. -/
def parseLoop : List Nat → Int → Int
  | [], value => value
  | b :: rest, value =>
    parseLoop rest
      (if b ≠ 46 then wrap16 (wrap16 (value * 10) + (((b + 208) % 256 : Nat) : Int)) else value)

/-- The same accumulation with unbounded integer arithmetic (no 16-bit
wrap); used to state that on well-formed spans the `i16` arithmetic of the
source never overflows. -/
def parseLoopInt : List Nat → Int → Int
  | [], value => value
  | b :: rest, value =>
    parseLoopInt rest
      (if b ≠ 46 then value * 10 + (((b + 208) % 256 : Nat) : Int) else value)

/-- `parse_temp_fast` (main.rs 197–225).  Indexing `temp[0]` panics on an
empty span, modelled as `none`; the final `value * sign` is an `i16`
multiplication, hence wrapped. -/
def parse_temp_fast (temp : List Nat) : Option Int :=
  match temp with
  | [] => none
  | b0 :: rest =>
    if b0 = 45 then some (wrap16 (parseLoop rest 0 * (-1)))
    else some (wrap16 (parseLoop (b0 :: rest) 0 * 1))

/-- Unbounded-arithmetic counterpart of `parse_temp_fast`. -/
def parse_temp_int (temp : List Nat) : Option Int :=
  match temp with
  | [] => none
  | b0 :: rest =>
    if b0 = 45 then some (parseLoopInt rest 0 * (-1))
    else some (parseLoopInt (b0 :: rest) 0 * 1)

/-- The naive byte-by-byte scan: offset of the first occurrence of `needle`,
or `none`.  This is the reference behaviour §4.3 demands of the vectorized
search. -/
def scanIdx (needle : Nat) : List Nat → Option Nat
  | [] => none
  | b :: rest => if b = needle then some 0 else (scanIdx needle rest).map (· + 1)

/-- AVX2 processes 32 bytes per SIMD instruction (main.rs 22). -/
def SIMD_WIDTH : Nat := 32

/-- The loop of `memchr` (main.rs 112–135): as long as a full 32-byte block
remains, compare the block in parallel; on a match the first-set-lane loop
returns the least matching lane index (the naive scan of the block).  The
scalar tail handles fewer than 32 remaining bytes. -/
def memchrGo (needle : Nat) (haystack : List Nat) (pos : Nat) : Option Nat :=
  if h : pos + SIMD_WIDTH ≤ haystack.length then
    match scanIdx needle ((haystack.drop pos).take SIMD_WIDTH) with
    | some i => some (pos + i)
    | none => memchrGo needle haystack (pos + SIMD_WIDTH)
  else
    (scanIdx needle (haystack.drop pos)).map (pos + ·)
termination_by haystack.length - pos
decreasing_by
  simp only [SIMD_WIDTH] at h ⊢
  omega

/-- `memchr` (main.rs 106–136). -/
def memchr (needle : Nat) (haystack : List Nat) : Option Nat := memchrGo needle haystack 0

/-- The loop of `split_at_newlines` (main.rs 82–98), producing the half-open
ranges `(start, actual_end)` of the pushed slices.  When the approximate
boundary falls before end-of-buffer and no newline follows it, the source
computes `actual_end = data.len() + 1` and the slice `&data[start..actual_end]`
panics, modelled as `none`. -/
def split_go (data : List Nat) (approx : Nat) (start : Nat)
    (acc : List (Nat × Nat)) : Option (List (Nat × Nat)) :=
  if hs : start < data.length then
    if he : start + approx < data.length then
      let actual_end := start + approx +
        ((memchr 10 (data.drop (start + approx))).getD (data.length - (start + approx))) + 1
      if ha : actual_end ≤ data.length then
        split_go data approx actual_end (acc ++ [(start, actual_end)])
      else none
    else
      split_go data approx data.length (acc ++ [(start, data.length)])
  else some acc
termination_by data.length + 1 - start
decreasing_by
  · omega
  · omega

/-- `split_at_newlines` (main.rs 78–101); the `end` of the source is
`min (start + approximate_chunk_size) data.length`, and `end < data.length`
is equivalent to `start + approximate_chunk_size < data.length`. -/
def split_at_newlines (data : List Nat) (approximate_chunk_size : Nat) :
    Option (List (Nat × Nat)) :=
  split_go data approximate_chunk_size 0 []

/-- Station keys are owned byte strings. -/
abbrev Key := List Nat

/-- `(min, sum, count, max)`, i.e. the Rust tuple `(i16, i64, usize, i16)`.
The min/max components are genuine `i16` values produced by
`parse_temp_fast`; sum and count are modelled with unbounded width (the
`i64`/`usize` ranges are never approached at realizable input sizes). -/
abbrev Stats := Int × Int × Nat × Int

/-- The statistics inserted on the first occurrence of a key
(main.rs 189). -/
def single (v : Int) : Stats := (v, v, 1, v)

/-- The `and_modify` update of `process_line` (main.rs 182–188). -/
def observe (s : Stats) (v : Int) : Stats :=
  (min s.1 v, s.2.1 + v, s.2.2.1 + 1, max s.2.2.2 v)

/-- The `and_modify` update of the merge loop in `main` (main.rs 62–68). -/
def combine (a b : Stats) : Stats :=
  (min a.1 b.1, a.2.1 + b.2.1, a.2.2.1 + b.2.2.1, max a.2.2.2 b.2.2.2)

/-- A hash table, modelled as an insertion-ordered association list. -/
abbrev Table := List (Key × Stats)

/-- `entry(k).and_modify(f).or_insert(ins)` on the association-list model. -/
def updEntry (k : Key) (f : Stats → Stats) (ins : Stats) : Table → Table
  | [] => [(k, ins)]
  | (k', s) :: rest => if k' = k then (k', f s) :: rest else (k', s) :: updEntry k f ins rest

/-- Map lookup on the association-list model. -/
def tlookup : Table → Key → Option Stats
  | [], _ => none
  | (k', s) :: rest, k => if k' = k then some s else tlookup rest k

/-- The per-record table update of `process_line` (main.rs 180–190). -/
def updTable (t : Table) (k : Key) (v : Int) : Table :=
  updEntry k (fun s => observe s v) (single v) t

/-- Folding one entry of a worker table into the global table
(main.rs 60–69). -/
def mergeEntry (t : Table) (k : Key) (s : Stats) : Table :=
  updEntry k (fun s0 => combine s0 s) s t

/-- Merging one whole worker table into the accumulated table
(main.rs 59–70). -/
def mergeTwo (t u : Table) : Table := u.foldl (fun acc e => mergeEntry acc e.1 e.2) t

/-- `process_line` (main.rs 167–191): `memchr(b';', line).unwrap()` panics
when the line has no semicolon, and `parse_temp_fast` panics on an empty
value span; both are `none`. -/
def process_line (line : List Nat) (stats : Table) : Option Table :=
  match memchr 59 line with
  | none => none
  | some semicolon_pos =>
    (parse_temp_fast (line.drop (semicolon_pos + 1))).map
      (fun temperature => updTable stats (line.take semicolon_pos) temperature)

/-- The scanning loop of `process_chunk` (main.rs 146–159), recursing on the
bytes from the current position onward: stop when no newline remains
(dropping any dangling final partial line), and process non-empty lines
only. -/
def process_go (data : List Nat) (stats : Table) : Option Table :=
  match h : memchr 10 data with
  | none => some stats
  | some line_end =>
    (if 0 < line_end then process_line (data.take line_end) stats else some stats).bind
      (fun t => process_go (data.drop (line_end + 1)) t)
termination_by data.length
decreasing_by
  cases data with
  | nil => simp [memchr, memchrGo, scanIdx, SIMD_WIDTH] at h
  | cons a l => simp only [List.length_drop, List.length_cons]; omega

/-- `process_chunk` (main.rs 140–162): scan a chunk starting from an empty
local table. -/
def process_chunk (data : List Nat) : Option Table := process_go data []

/-- The key/value pair extracted from one line, mirroring `process_line`
without the table update. -/
def parseRecord (line : List Nat) : Option (Key × Int) :=
  match memchr 59 line with
  | none => none
  | some p => (parse_temp_fast (line.drop (p + 1))).map (fun v => (line.take p, v))

/-- The sequence of records `process_chunk` aggregates, in scan order. -/
def recordsOf (data : List Nat) : Option (List (Key × Int)) :=
  match h : memchr 10 data with
  | none => some []
  | some line_end =>
    if 0 < line_end then
      (parseRecord (data.take line_end)).bind
        (fun r => (recordsOf (data.drop (line_end + 1))).map (fun rs => r :: rs))
    else recordsOf (data.drop (line_end + 1))
termination_by data.length
decreasing_by
  · cases data with
    | nil => simp [memchr, memchrGo, scanIdx, SIMD_WIDTH] at h
    | cons a l => simp only [List.length_drop, List.length_cons]; omega
  · cases data with
    | nil => simp [memchr, memchrGo, scanIdx, SIMD_WIDTH] at h
    | cons a l => simp only [List.length_drop, List.length_cons]; omega

/-- Collecting the per-worker results: a panicking worker makes
`handle.join().unwrap()` panic in `main`. -/
def sequenceOpt : List (Option Table) → Option (List Table)
  | [] => some []
  | o :: rest => o.bind (fun t => (sequenceOpt rest).map (t :: ·))

/-- The left-to-right merge of all worker tables into the initially empty
global table (main.rs 52–71). -/
def mergeAll (ts : List Table) : Table := ts.foldl mergeTwo []

/-- The whole parallel run on a given chunk list: process every chunk and
fold the worker tables into the global table in order (main.rs 44–71). -/
def runChunks (chunks : List (List Nat)) : Option Table :=
  (sequenceOpt (chunks.map process_chunk)).map mergeAll

/-- A record-aligned partition: every chunk except the last is empty or
ends one past a newline byte. -/
def chunksAligned : List (List Nat) → Prop
  | [] => True
  | [_] => True
  | c :: c2 :: rest => (c = [] ∨ c.getLast? = some 10) ∧ chunksAligned (c2 :: rest)

/-- Equality of tables as key→statistics maps. -/
def TableEquiv (t u : Table) : Prop := ∀ k, tlookup t k = tlookup u k

/-- Equality of runs: both panic, or both succeed with equal tables. -/
def runEquiv : Option Table → Option Table → Prop
  | none, none => True
  | some t, some u => TableEquiv t u
  | _, _ => False

/-- Merging two optional per-key statistics, the per-key semantics of the
table merge. -/
def mOpt : Option Stats → Option Stats → Option Stats
  | a, none => a
  | none, some b => some b
  | some a, some b => some (combine a b)

/-- A table whose keys are pairwise distinct (true of every table the
engine builds). -/
abbrev NodupKeys (t : Table) : Prop := (t.map Prod.fst).Nodup

/-- An arbitrary merge tree over worker tables: the "any order or tree
shape" in which the commutative, associative reduction may be applied. -/
inductive MergeTree
  | leaf (t : Table)
  | node (l r : MergeTree)

/-- Reducing a merge tree with the pairwise table merge. -/
def MergeTree.reduce : MergeTree → Table
  | leaf t => t
  | node l r => mergeTwo l.reduce r.reduce

/-- The worker tables at the leaves, left to right. -/
def MergeTree.leaves : MergeTree → List Table
  | leaf t => [t]
  | node l r => l.leaves ++ r.leaves

/-- ASCII digit test. -/
def isDigit (b : Nat) : Bool := 48 ≤ b && b ≤ 57

/-- The magnitude part of the value grammar of §6/§4.4: one or two integer
digits, a dot, exactly one fractional digit. -/
def wellFormedCore : List Nat → Bool
  | [a, d, c] => isDigit a && (d == 46) && isDigit c
  | [a, b, d, c] => isDigit a && isDigit b && (d == 46) && isDigit c
  | _ => false

/-- The full value grammar: an optional leading minus before the
magnitude. -/
def wellFormedTemp : List Nat → Bool
  | [] => false
  | b0 :: rest => if b0 = 45 then wellFormedCore rest else wellFormedCore (b0 :: rest)

/-- Digit value of an ASCII byte. -/
def dv (b : Nat) : Int := (b : Int) - 48

/-- The decimal value of a well-formed magnitude, times ten.  Modelled from
the spec: sign · (integer part · 10 + fractional digit). -/
def tempScaledCore : List Nat → Int
  | [a, _, c] => dv a * 10 + dv c
  | [a, b, _, c] => (dv a * 10 + dv b) * 10 + dv c
  | _ => 0

/-- The decimal value of a well-formed span, times ten.  Modelled from the
spec's words for the scaled temperature. -/
def tempScaled : List Nat → Int
  | [] => 0
  | b0 :: rest => if b0 = 45 then -(tempScaledCore rest) else tempScaledCore (b0 :: rest)

/-- The values recorded for one key, in scan order. -/
def valuesFor (rs : List (Key × Int)) (k : Key) : List Int :=
  (rs.filter (fun r => r.1 = k)).map Prod.snd

/-- The statistics of a list of observed values as the spec states them:
the first value inserts `(v, v, 1, v)`, every further value folds in with
`(min, +, +1, max)`; no value means no entry. -/
def statsOfList : List Int → Option Stats
  | [] => none
  | v :: vs => some (vs.foldl observe (single v))

/-- One step of observation on an optional entry: insert on first sight,
update otherwise. -/
def obsStep (o : Option Stats) (v : Int) : Option Stats :=
  some (match o with | some s => observe s v | none => single v)

theorem scanIdx_bound {needle : Nat} {l : List Nat} {i : Nat}
    (h : scanIdx needle l = some i) : i < l.length := by
  induction l generalizing i with
  | nil => simp [scanIdx] at h
  | cons b rest ih =>
    simp only [scanIdx] at h
    split at h
    · cases h
      simp
    · obtain ⟨j, hj, hji⟩ := Option.map_eq_some'.mp h
      have := ih hj
      simp only [List.length_cons]
      omega

theorem scanIdx_eq_none_iff {needle : Nat} {l : List Nat} :
    scanIdx needle l = none ↔ needle ∉ l := by
  induction l with
  | nil => simp [scanIdx]
  | cons b rest ih =>
    by_cases hb : b = needle
    · simp [scanIdx, hb]
    · simp only [scanIdx, hb, if_false, List.mem_cons]
      cases h : scanIdx needle rest <;> simp [h] at ih ⊢ <;> tauto

theorem scanIdx_append (needle : Nat) (l₁ l₂ : List Nat) :
    scanIdx needle (l₁ ++ l₂) =
      (scanIdx needle l₁).or ((scanIdx needle l₂).map (· + l₁.length)) := by
  induction l₁ with
  | nil =>
    cases h : scanIdx needle l₂ <;> simp [scanIdx, h]
  | cons b rest ih =>
    by_cases hb : b = needle
    · simp [scanIdx, hb]
    · cases h1 : scanIdx needle rest with
      | some i => simp [scanIdx, hb, ih, h1, Option.or]
      | none =>
        cases h2 : scanIdx needle l₂ with
        | none => simp [scanIdx, hb, ih, h1, h2, Option.or]
        | some j =>
          simp only [List.cons_append, scanIdx, hb, if_false, List.append_eq, ih, h1, h2,
            Option.map_none', Option.map_some', Option.or, List.length_cons]
          congr 1

theorem memchrGo_eq (needle : Nat) (haystack : List Nat) :
    ∀ pos, memchrGo needle haystack pos = (scanIdx needle (haystack.drop pos)).map (pos + ·) := by
  have H : ∀ n pos, haystack.length - pos ≤ n →
      memchrGo needle haystack pos = (scanIdx needle (haystack.drop pos)).map (pos + ·) := by
    intro n
    induction n with
    | zero =>
      intro pos hp
      rw [memchrGo]
      have hlen : haystack.length ≤ pos := by omega
      have hdrop : haystack.drop pos = [] := List.drop_eq_nil_of_le hlen
      have hcond : ¬ pos + SIMD_WIDTH ≤ haystack.length := by
        simp only [SIMD_WIDTH]; omega
      simp [hcond, hdrop]
    | succ n ih =>
      intro pos hp
      rw [memchrGo]
      split
      · next h =>
        have h32 : (32 : Nat) ≤ (haystack.drop pos).length := by
          simp only [List.length_drop]
          simp only [SIMD_WIDTH] at h
          omega
        have hsplit : haystack.drop pos =
            (haystack.drop pos).take SIMD_WIDTH ++ haystack.drop (pos + SIMD_WIDTH) := by
          rw [← List.drop_drop]
          exact (List.take_append_drop SIMD_WIDTH (haystack.drop pos)).symm
        have hlen32 : ((haystack.drop pos).take SIMD_WIDTH).length = SIMD_WIDTH := by
          simp only [List.length_take, List.length_drop]
          simp only [SIMD_WIDTH] at h ⊢
          omega
        rw [show scanIdx needle (haystack.drop pos) =
              scanIdx needle ((haystack.drop pos).take SIMD_WIDTH ++
                haystack.drop (pos + SIMD_WIDTH)) from by rw [← hsplit]]
        rw [scanIdx_append, hlen32]
        cases hblock : scanIdx needle ((haystack.drop pos).take SIMD_WIDTH) with
        | some i => simp [Option.or]
        | none =>
          have ihr := ih (pos + SIMD_WIDTH) (by simp only [SIMD_WIDTH] at *; omega)
          rw [ihr]
          cases htail : scanIdx needle (haystack.drop (pos + SIMD_WIDTH)) with
          | none => simp [Option.or]
          | some j =>
            simp only [Option.or, Option.map_some']
            congr 1
            simp only [SIMD_WIDTH]
            omega
      · rfl
  exact fun pos => H (haystack.length - pos) pos le_rfl

theorem memchr_eq_scan (needle : Nat) (haystack : List Nat) :
    memchr needle haystack = scanIdx needle haystack := by
  rw [memchr, memchrGo_eq]
  cases h : scanIdx needle haystack <;> simp [h]

theorem process_go_eq_none {data : List Nat} (t : Table) (h : memchr 10 data = none) :
    process_go data t = some t := by
  rw [process_go.eq_def, h]

theorem process_go_eq_some {data : List Nat} {j : Nat} (t : Table) (h : memchr 10 data = some j) :
    process_go data t =
      (if 0 < j then process_line (data.take j) t else some t).bind
        (fun u => process_go (data.drop (j + 1)) u) := by
  conv_lhs => rw [process_go.eq_def]
  rw [h]

theorem recordsOf_eq_none {data : List Nat} (h : memchr 10 data = none) :
    recordsOf data = some [] := by
  rw [recordsOf.eq_def, h]

theorem recordsOf_eq_some {data : List Nat} {j : Nat} (h : memchr 10 data = some j) :
    recordsOf data =
      if 0 < j then
        (parseRecord (data.take j)).bind
          (fun r => (recordsOf (data.drop (j + 1))).map (fun rs => r :: rs))
      else recordsOf (data.drop (j + 1)) := by
  conv_lhs => rw [recordsOf.eq_def]
  rw [h]

theorem mOpt_none_left (o : Option Stats) : mOpt none o = o := by cases o <;> rfl

theorem mOpt_none_right (o : Option Stats) : mOpt o none = o := by cases o <;> rfl

theorem combine_comm (a b : Stats) : combine a b = combine b a := by
  simp [combine, Prod.ext_iff, min_comm, max_comm, add_comm]

theorem combine_assoc (a b c : Stats) :
    combine (combine a b) c = combine a (combine b c) := by
  simp [combine, Prod.ext_iff, min_assoc, max_assoc, add_assoc]

theorem mOpt_comm (o p : Option Stats) : mOpt o p = mOpt p o := by
  cases o <;> cases p <;> simp [mOpt, combine_comm]

theorem mOpt_assoc (o p q : Option Stats) :
    mOpt (mOpt o p) q = mOpt o (mOpt p q) := by
  cases o <;> cases p <;> cases q <;> simp [mOpt, combine_assoc]

theorem observe_eq_combine (s : Stats) (v : Int) : observe s v = combine s (single v) := by
  simp [observe, combine, single]

theorem tlookup_updEntry (k : Key) (f : Stats → Stats) (ins : Stats) (t : Table) (k' : Key) :
    tlookup (updEntry k f ins t) k' =
      if k = k' then (match tlookup t k with | some s => some (f s) | none => some ins)
      else tlookup t k' := by
  induction t with
  | nil => by_cases h : k = k' <;> simp [updEntry, tlookup, h]
  | cons e rest ih =>
    obtain ⟨k0, s0⟩ := e
    by_cases h0 : k0 = k
    · subst h0
      by_cases h : k0 = k' <;> simp [updEntry, tlookup, h]
    · by_cases h' : k0 = k'
      · subst h'
        have hkk : ¬ k = k0 := fun hc => h0 hc.symm
        simp [updEntry, tlookup, h0, hkk]
      · simp [updEntry, tlookup, h0, h', ih]

theorem tlookup_updTable (t : Table) (k : Key) (v : Int) (k' : Key) :
    tlookup (updTable t k v) k' =
      if k = k' then obsStep (tlookup t k) v else tlookup t k' := by
  rw [updTable, tlookup_updEntry]
  cases tlookup t k <;> by_cases h : k = k' <;> simp [obsStep, h]

theorem tlookup_mergeEntry (t : Table) (k : Key) (s : Stats) (k' : Key) :
    tlookup (mergeEntry t k s) k' =
      if k = k' then mOpt (tlookup t k) (some s) else tlookup t k' := by
  rw [mergeEntry, tlookup_updEntry]
  cases tlookup t k <;> by_cases h : k = k' <;> simp [mOpt, h]

theorem tlookup_eq_none_iff {t : Table} {k : Key} :
    tlookup t k = none ↔ k ∉ t.map Prod.fst := by
  induction t with
  | nil => simp [tlookup]
  | cons e rest ih =>
    obtain ⟨k0, s0⟩ := e
    by_cases h : k0 = k
    · subst h
      simp [tlookup]
    · have : ¬ k = k0 := fun hc => h hc.symm
      simp [tlookup, h, ih, this]

theorem keys_updEntry (k : Key) (f : Stats → Stats) (ins : Stats) (t : Table) :
    (updEntry k f ins t).map Prod.fst =
      if k ∈ t.map Prod.fst then t.map Prod.fst else t.map Prod.fst ++ [k] := by
  induction t with
  | nil => simp [updEntry]
  | cons e rest ih =>
    obtain ⟨k0, s0⟩ := e
    by_cases h : k0 = k
    · subst h
      simp [updEntry]
    · have : ¬ k = k0 := fun hc => h hc.symm
      by_cases hm : k ∈ rest.map Prod.fst <;> simp [updEntry, h, this, ih, hm]

theorem nodupKeys_updEntry (k : Key) (f : Stats → Stats) (ins : Stats) {t : Table}
    (h : NodupKeys t) : NodupKeys (updEntry k f ins t) := by
  unfold NodupKeys at *
  rw [keys_updEntry]
  split
  · exact h
  · next hm =>
    simp only [List.nodup_append, List.nodup_cons, List.nodup_nil]
    exact ⟨h, by simp, by simpa [List.disjoint_singleton] using hm⟩

theorem nodupKeys_nil : NodupKeys ([] : Table) := by simp [NodupKeys]

theorem nodupKeys_updTable {t : Table} (h : NodupKeys t) (k : Key) (v : Int) :
    NodupKeys (updTable t k v) := nodupKeys_updEntry k _ _ h

theorem nodupKeys_mergeEntry {t : Table} (h : NodupKeys t) (k : Key) (s : Stats) :
    NodupKeys (mergeEntry t k s) := nodupKeys_updEntry k _ _ h

theorem mergeTwo_cons (t : Table) (k0 : Key) (s0 : Stats) (rest : Table) :
    mergeTwo t ((k0, s0) :: rest) = mergeTwo (mergeEntry t k0 s0) rest := rfl

theorem nodupKeys_mergeTwo {t : Table} (h : NodupKeys t) (u : Table) :
    NodupKeys (mergeTwo t u) := by
  induction u generalizing t with
  | nil => exact h
  | cons e rest ih =>
    obtain ⟨k0, s0⟩ := e
    rw [mergeTwo_cons]
    exact ih (nodupKeys_mergeEntry h k0 s0)

theorem tlookup_mergeTwo (u : Table) (hu : NodupKeys u) (t : Table) (k : Key) :
    tlookup (mergeTwo t u) k = mOpt (tlookup t k) (tlookup u k) := by
  induction u generalizing t with
  | nil => simp [mergeTwo, tlookup, mOpt_none_right]
  | cons e rest ih =>
    obtain ⟨k0, s0⟩ := e
    have hu' : k0 ∉ rest.map Prod.fst ∧ NodupKeys rest := by
      simpa [NodupKeys, List.nodup_cons] using hu
    rw [mergeTwo_cons, ih hu'.2, tlookup_mergeEntry]
    by_cases hk : k0 = k
    · subst hk
      have hnone : tlookup rest k0 = none := tlookup_eq_none_iff.mpr hu'.1
      simp [tlookup, hnone, mOpt_none_right]
    · have : ¬ k = k0 := fun hc => hk hc.symm
      simp [tlookup, hk, this]

theorem tlookup_foldl_mergeTwo (ts : List Table) (hts : ∀ t ∈ ts, NodupKeys t)
    (a : Table) (k : Key) :
    tlookup (ts.foldl mergeTwo a) k =
      ts.foldl (fun o t => mOpt o (tlookup t k)) (tlookup a k) := by
  induction ts generalizing a with
  | nil => rfl
  | cons u rest ih =>
    simp only [List.foldl_cons]
    rw [ih (fun t ht => hts t (List.mem_cons_of_mem _ ht)),
      tlookup_mergeTwo u (hts u (List.mem_cons_self _ _)) a k]

theorem foldl_mOpt_shift (ts : List Table) (k : Key) (a : Option Stats) :
    ts.foldl (fun o t => mOpt o (tlookup t k)) a =
      mOpt a (ts.foldl (fun o t => mOpt o (tlookup t k)) none) := by
  induction ts generalizing a with
  | nil => simp [mOpt_none_right]
  | cons u rest ih =>
    simp only [List.foldl_cons]
    rw [ih (mOpt a (tlookup u k)), ih (mOpt none (tlookup u k)),
      mOpt_none_left, mOpt_assoc]

theorem process_line_eq (line : List Nat) (stats : Table) :
    process_line line stats = (parseRecord line).map (fun r => updTable stats r.1 r.2) := by
  unfold process_line parseRecord
  cases memchr 59 line with
  | none => rfl
  | some p => cases hq : parse_temp_fast (line.drop (p + 1)) <;> simp [hq]

theorem obsStep_eq (o : Option Stats) (v : Int) :
    obsStep o v = mOpt o (some (single v)) := by
  cases o <;> simp [obsStep, mOpt, observe_eq_combine]

theorem scanIdx_isSome_of_mem {needle : Nat} {l : List Nat} (h : needle ∈ l) :
    ∃ i, scanIdx needle l = some i := by
  cases hs : scanIdx needle l with
  | none => exact absurd (scanIdx_eq_none_iff.mp hs) (by simpa using h)
  | some i => exact ⟨i, rfl⟩

theorem aligned_drop {A : List Nat} (hA : A = [] ∨ A.getLast? = some 10) (n : Nat) :
    A.drop n = [] ∨ (A.drop n).getLast? = some 10 := by
  cases hA with
  | inl h => subst h; simp
  | inr h =>
    by_cases hd : A.drop n = []
    · exact Or.inl hd
    · right
      have hn : ¬ A.length ≤ n := by
        intro hc
        exact hd (List.drop_eq_nil_of_le hc)
      rw [List.getLast?_drop, if_neg hn]
      exact h

theorem process_go_empty (t : Table) : process_go [] t = some t :=
  process_go_eq_none t (by rw [memchr_eq_scan]; rfl)

theorem process_go_append (B : List Nat) :
    ∀ (A : List Nat), (A = [] ∨ A.getLast? = some 10) → ∀ (t : Table),
      process_go (A ++ B) t = (process_go A t).bind (fun u => process_go B u) := by
  have H : ∀ n (A : List Nat), A.length ≤ n → (A = [] ∨ A.getLast? = some 10) → ∀ t,
      process_go (A ++ B) t = (process_go A t).bind (fun u => process_go B u) := by
    intro n
    induction n with
    | zero =>
      intro A hlen hA t
      have hAnil : A = [] := List.length_eq_zero.mp (by omega)
      subst hAnil
      simp [process_go_empty]
    | succ n ih =>
      intro A hlen hA t
      cases hA with
      | inl h =>
        subst h
        simp [process_go_empty]
      | inr hlast =>
        have hmem : (10 : Nat) ∈ A := List.mem_of_mem_getLast? (by simp [hlast])
        obtain ⟨j, hj⟩ := scanIdx_isSome_of_mem hmem
        have hjb : j < A.length := scanIdx_bound hj
        have hmemA : memchr 10 A = some j := by rw [memchr_eq_scan]; exact hj
        have hmemAB : memchr 10 (A ++ B) = some j := by
          rw [memchr_eq_scan, scanIdx_append, hj]
          rfl
        rw [process_go_eq_some t hmemAB, process_go_eq_some t hmemA,
          List.take_append_of_le_length (le_of_lt hjb),
          List.drop_append_of_le_length (by omega)]
        cases hstep : (if 0 < j then process_line (A.take j) t else some t) with
        | none => rfl
        | some t1 =>
          simp only [Option.some_bind]
          exact ih (A.drop (j + 1)) (by simp [List.length_drop]; omega)
            (aligned_drop (Or.inr hlast) (j + 1)) t1
  exact fun A hA t => H A.length A le_rfl hA t

theorem process_go_state (B : List Nat) :
    ∀ (t : Table),
      ((process_go B t).isSome ↔ (process_go B []).isSome) ∧
      (∀ w u, process_go B t = some w → process_go B [] = some u →
        ∀ k, tlookup w k = mOpt (tlookup t k) (tlookup u k)) := by
  have H : ∀ n (B : List Nat), B.length ≤ n → ∀ t,
      ((process_go B t).isSome ↔ (process_go B []).isSome) ∧
      (∀ w u, process_go B t = some w → process_go B [] = some u →
        ∀ k, tlookup w k = mOpt (tlookup t k) (tlookup u k)) := by
    intro n
    induction n with
    | zero =>
      intro B hlen t
      have hB : B = [] := List.length_eq_zero.mp (by omega)
      subst hB
      refine ⟨by simp [process_go_empty], ?_⟩
      intro w u hw hu k
      rw [process_go_empty] at hw hu
      cases hw; cases hu
      simp [tlookup, mOpt_none_right]
    | succ n ih =>
      intro B hlen t
      cases hm : memchr 10 B with
      | none =>
        have hgt : ∀ s : Table, process_go B s = some s := fun s => process_go_eq_none s hm
        refine ⟨by simp [hgt], ?_⟩
        intro w u hw hu k
        rw [hgt] at hw hu
        cases hw; cases hu
        simp [tlookup, mOpt_none_right]
      | some j =>
        have hjb : j < B.length := scanIdx_bound (by rw [← memchr_eq_scan]; exact hm)
        have hlen' : (B.drop (j + 1)).length ≤ n := by simp [List.length_drop]; omega
        have hgo : ∀ s : Table, process_go B s =
            (if 0 < j then process_line (B.take j) s else some s).bind
              (fun u => process_go (B.drop (j + 1)) u) := fun s => process_go_eq_some s hm
        by_cases hj : 0 < j
        · cases hp : parseRecord (B.take j) with
          | none =>
            have hnone : ∀ s : Table, process_go B s = none := by
              intro s
              rw [hgo s, if_pos hj, process_line_eq, hp]
              rfl
            refine ⟨by simp [hnone], ?_⟩
            intro w u hw hu k
            rw [hnone] at hw
            simp at hw
          | some r =>
            obtain ⟨k0, v⟩ := r
            have hstep : ∀ s : Table,
                process_go B s = process_go (B.drop (j + 1)) (updTable s k0 v) := by
              intro s
              rw [hgo s, if_pos hj, process_line_eq, hp]
              rfl
            have iht := ih (B.drop (j + 1)) hlen' (updTable t k0 v)
            have ihe := ih (B.drop (j + 1)) hlen' (updTable [] k0 v)
            constructor
            · rw [hstep t, hstep []]
              exact iht.1.trans ihe.1.symm
            · intro w u hw hu k
              rw [hstep t] at hw
              rw [hstep []] at hu
              have hsome : (process_go (B.drop (j + 1)) []).isSome := by
                have hws : (process_go (B.drop (j + 1)) (updTable t k0 v)).isSome := by
                  rw [hw]; rfl
                exact iht.1.mp hws
              obtain ⟨u0, hu0⟩ := Option.isSome_iff_exists.mp hsome
              have e1 := iht.2 w u0 hw hu0 k
              have e2 := ihe.2 u u0 hu hu0 k
              rw [e1, e2, tlookup_updTable, tlookup_updTable]
              by_cases hk : k0 = k
              · subst hk
                simp [tlookup, obsStep_eq, mOpt_none_left, mOpt_assoc]
              · simp [hk, tlookup, mOpt_none_left]
        · have hstep : ∀ s : Table, process_go B s = process_go (B.drop (j + 1)) s := by
            intro s
            rw [hgo s, if_neg hj]
            rfl
          have ihd := ih (B.drop (j + 1)) hlen'
          constructor
          · rw [hstep t, hstep []]
            exact (ihd t).1
          · intro w u hw hu k
            rw [hstep] at hw hu
            exact (ihd t).2 w u hw hu k
  exact fun t => H B.length B le_rfl t

theorem nodupKeys_process_go (B : List Nat) :
    ∀ t, NodupKeys t → ∀ w, process_go B t = some w → NodupKeys w := by
  have H : ∀ n (B : List Nat), B.length ≤ n → ∀ t, NodupKeys t →
      ∀ w, process_go B t = some w → NodupKeys w := by
    intro n
    induction n with
    | zero =>
      intro B hlen t ht w hw
      have hB : B = [] := List.length_eq_zero.mp (by omega)
      subst hB
      rw [process_go_empty] at hw
      cases hw
      exact ht
    | succ n ih =>
      intro B hlen t ht w hw
      cases hm : memchr 10 B with
      | none =>
        rw [process_go_eq_none t hm] at hw
        cases hw
        exact ht
      | some j =>
        have hjb : j < B.length := scanIdx_bound (by rw [← memchr_eq_scan]; exact hm)
        have hlen' : (B.drop (j + 1)).length ≤ n := by simp [List.length_drop]; omega
        rw [process_go_eq_some t hm] at hw
        by_cases hj : 0 < j
        · rw [if_pos hj, process_line_eq] at hw
          cases hp : parseRecord (B.take j) with
          | none => rw [hp] at hw; simp at hw
          | some r =>
            rw [hp] at hw
            simp only [Option.map_some', Option.some_bind] at hw
            exact ih _ hlen' _ (nodupKeys_updTable ht r.1 r.2) w hw
        · rw [if_neg hj] at hw
          simp only [Option.some_bind] at hw
          exact ih _ hlen' t ht w hw
  exact H B.length B le_rfl

theorem nodupKeys_process_chunk {data : List Nat} {t : Table}
    (h : process_chunk data = some t) : NodupKeys t :=
  nodupKeys_process_go data [] nodupKeys_nil t h

theorem sequenceOpt_nodup : ∀ (cs : List (List Nat)) (ts : List Table),
    sequenceOpt (cs.map process_chunk) = some ts → ∀ t ∈ ts, NodupKeys t := by
  intro cs
  induction cs with
  | nil =>
    intro ts h t ht
    simp only [List.map_nil, sequenceOpt] at h
    cases h
    simp at ht
  | cons c rest ih =>
    intro ts h t ht
    simp only [List.map_cons, sequenceOpt] at h
    cases hc : process_chunk c with
    | none => rw [hc] at h; simp at h
    | some tc =>
      rw [hc] at h
      simp only [Option.some_bind] at h
      cases hr : sequenceOpt (rest.map process_chunk) with
      | none => rw [hr] at h; simp at h
      | some ts' =>
        rw [hr] at h
        simp only [Option.map_some'] at h
        cases h
        rcases List.mem_cons.mp ht with h1 | h2
        · subst h1
          exact nodupKeys_process_chunk hc
        · exact ih ts' hr t h2

theorem runChunks_cons_none {c : List Nat} {rest : List (List Nat)}
    (h : process_chunk c = none) : runChunks (c :: rest) = none := by
  simp [runChunks, sequenceOpt, h]

theorem runChunks_cons_some {c : List Nat} {rest : List (List Nat)} {tc : Table}
    (h : process_chunk c = some tc) :
    runChunks (c :: rest) =
      (sequenceOpt (rest.map process_chunk)).map (fun ts => mergeAll (tc :: ts)) := by
  simp only [runChunks, List.map_cons, sequenceOpt, h, Option.some_bind]
  cases sequenceOpt (rest.map process_chunk) <;> simp

/-- C1: for every input buffer and every record-aligned chunk partitioning of
it, running `process_chunk` on each chunk and merging the per-chunk tables
as `main` does yields the identical final key→statistics table (the
one-chunk run over the whole buffer); the aggregation result is independent
of the degree of parallelism. -/
theorem partition_independence (cs : List (List Nat)) (h : chunksAligned cs) :
    runEquiv (runChunks cs) (process_chunk cs.flatten) := by
  induction cs with
  | nil =>
    have h2 : process_chunk ([] : List (List Nat)).flatten = some [] := process_go_empty []
    rw [show runChunks [] = some [] from rfl, h2]
    exact fun _ => rfl
  | cons c rest ih =>
    cases rest with
    | nil =>
      rw [show (([c] : List (List Nat)).flatten) = c by simp]
      cases hpc : process_chunk c with
      | none =>
        rw [runChunks_cons_none hpc]
        exact trivial
      | some tc =>
        rw [runChunks_cons_some hpc]
        rw [show sequenceOpt (([] : List (List Nat)).map process_chunk) = some [] from rfl]
        simp only [Option.map_some']
        show TableEquiv (mergeAll [tc]) tc
        intro k
        rw [show mergeAll [tc] = mergeTwo [] tc from rfl,
          tlookup_mergeTwo tc (nodupKeys_process_chunk hpc) [] k,
          show tlookup ([] : Table) k = none from rfl, mOpt_none_left]
    | cons c2 rest' =>
      obtain ⟨hal, h2⟩ : (c = [] ∨ c.getLast? = some 10) ∧ chunksAligned (c2 :: rest') := h
      have hflat : ((c :: c2 :: rest') : List (List Nat)).flatten = c ++ (c2 :: rest').flatten :=
        List.flatten_cons
      have happ := process_go_append ((c2 :: rest').flatten) c hal []
      cases hpc : process_chunk c with
      | none =>
        rw [runChunks_cons_none hpc, hflat]
        rw [show process_chunk (c ++ (c2 :: rest').flatten) =
          process_go (c ++ (c2 :: rest').flatten) [] from rfl, happ]
        rw [show process_go c [] = process_chunk c from rfl, hpc]
        exact trivial
      | some tc =>
        have hih := ih h2
        rw [runChunks_cons_some hpc, hflat]
        rw [show process_chunk (c ++ (c2 :: rest').flatten) =
          process_go (c ++ (c2 :: rest').flatten) [] from rfl, happ]
        rw [show process_go c [] = process_chunk c from rfl, hpc]
        simp only [Option.some_bind]
        have hstate := process_go_state ((c2 :: rest').flatten) tc
        cases hseq : sequenceOpt ((c2 :: rest').map process_chunk) with
        | none =>
          have hrc : runChunks (c2 :: rest') = none := by
            unfold runChunks
            rw [hseq]
            rfl
          rw [hrc] at hih
          have hJ : process_chunk ((c2 :: rest').flatten) = none := by
            cases hJ' : process_chunk ((c2 :: rest').flatten) with
            | none => rfl
            | some tJ => rw [hJ'] at hih; exact False.elim hih
          have : process_go ((c2 :: rest').flatten) tc = none := by
            cases hg : process_go ((c2 :: rest').flatten) tc with
            | none => rfl
            | some w =>
              have h1 : (process_go ((c2 :: rest').flatten) tc).isSome := by rw [hg]; rfl
              have h2' := hstate.1.mp h1
              rw [show process_go ((c2 :: rest').flatten) [] =
                process_chunk ((c2 :: rest').flatten) from rfl, hJ] at h2'
              simp at h2'
          rw [this]
          exact trivial
        | some ts =>
          have hrc : runChunks (c2 :: rest') = some (mergeAll ts) := by
            unfold runChunks
            rw [hseq]
            rfl
          rw [hrc] at hih
          cases hJ : process_chunk ((c2 :: rest').flatten) with
          | none => rw [hJ] at hih; exact False.elim hih
          | some tJ =>
            rw [hJ] at hih
            have hequiv : TableEquiv (mergeAll ts) tJ := hih
            have hw : (process_go ((c2 :: rest').flatten) tc).isSome := by
              rw [hstate.1]
              rw [show process_go ((c2 :: rest').flatten) [] =
                process_chunk ((c2 :: rest').flatten) from rfl, hJ]
              rfl
            obtain ⟨w, hw⟩ := Option.isSome_iff_exists.mp hw
            rw [hw]
            simp only [Option.map_some']
            show TableEquiv (mergeAll (tc :: ts)) w
            intro k
            have hnodups : ∀ t ∈ ts, NodupKeys t := sequenceOpt_nodup _ ts hseq
            have hmerge := hstate.2 w tJ hw (by
              rw [show process_go ((c2 :: rest').flatten) [] =
                process_chunk ((c2 :: rest').flatten) from rfl, hJ]) k
            rw [hmerge]
            rw [show mergeAll (tc :: ts) = ts.foldl mergeTwo (mergeTwo [] tc) from rfl]
            rw [tlookup_foldl_mergeTwo ts hnodups (mergeTwo [] tc) k]
            rw [tlookup_mergeTwo tc (nodupKeys_process_chunk hpc) [] k,
              show tlookup ([] : Table) k = none from rfl, mOpt_none_left]
            rw [foldl_mOpt_shift]
            have : ts.foldl (fun o t => mOpt o (tlookup t k)) none = tlookup tJ k := by
              rw [← hequiv k]
              rw [show mergeAll ts = ts.foldl mergeTwo [] from rfl,
                tlookup_foldl_mergeTwo ts hnodups [] k,
                show tlookup ([] : Table) k = none from rfl]
            rw [this]

theorem nodupKeys_reduce (tr : MergeTree) (h : ∀ t ∈ tr.leaves, NodupKeys t) :
    NodupKeys tr.reduce := by
  induction tr with
  | leaf t => exact h t (by simp [MergeTree.leaves])
  | node l r ihl ihr =>
    have hl : ∀ t ∈ l.leaves, NodupKeys t := fun t ht =>
      h t (by simp [MergeTree.leaves, ht])
    exact nodupKeys_mergeTwo (ihl hl) _

theorem tlookup_reduce (tr : MergeTree) (h : ∀ t ∈ tr.leaves, NodupKeys t) (k : Key) :
    tlookup tr.reduce k = tr.leaves.foldl (fun o t => mOpt o (tlookup t k)) none := by
  induction tr with
  | leaf t =>
    rw [show (MergeTree.leaf t).reduce = t from rfl,
      show (MergeTree.leaf t).leaves = [t] from rfl]
    simp [mOpt_none_left]
  | node l r ihl ihr =>
    have hl : ∀ t ∈ l.leaves, NodupKeys t := fun t ht =>
      h t (by simp [MergeTree.leaves, ht])
    have hr : ∀ t ∈ r.leaves, NodupKeys t := fun t ht =>
      h t (by simp [MergeTree.leaves, ht])
    rw [show (MergeTree.node l r).reduce = mergeTwo l.reduce r.reduce from rfl,
      tlookup_mergeTwo r.reduce (nodupKeys_reduce r hr) l.reduce k,
      ihl hl, ihr hr,
      show (MergeTree.node l r).leaves = l.leaves ++ r.leaves from rfl,
      List.foldl_append,
      foldl_mOpt_shift r.leaves k
        (List.foldl (fun o t => mOpt o (tlookup t k)) none l.leaves)]

/-- C4: the SIMD `memchr` returns exactly what a naive byte-by-byte scan
returns — the offset of the first occurrence of the needle, or `none` — for
every haystack and needle, including tails shorter than the 32-byte vector
width. -/
theorem memchr_eq_naive_scan (needle : Nat) (haystack : List Nat) :
    memchr needle haystack = scanIdx needle haystack :=
  memchr_eq_scan needle haystack

/-- C7: the per-key merge lifted to whole tables is commutative and
associative: reducing any merge tree over a collection of (duplicate-free)
worker tables yields the same key→statistics table as the single fixed
left-to-right merge of those tables in any order. -/
theorem merge_reduction_order_independent (tr : MergeTree) (ts : List Table)
    (hn : ∀ t ∈ ts, NodupKeys t) (hp : tr.leaves.Perm ts) :
    TableEquiv tr.reduce (mergeAll ts) := by
  intro k
  have hleaves : ∀ t ∈ tr.leaves, NodupKeys t := fun t ht => hn t (hp.mem_iff.mp ht)
  rw [tlookup_reduce tr hleaves k,
    show mergeAll ts = ts.foldl mergeTwo [] from rfl,
    tlookup_foldl_mergeTwo ts hn [] k,
    show tlookup ([] : Table) k = none from rfl]
  haveI : RightCommutative (fun (o : Option Stats) (t : Table) => mOpt o (tlookup t k)) :=
    ⟨fun b a₁ a₂ => by rw [mOpt_assoc, mOpt_assoc, mOpt_comm (tlookup a₁ k)]⟩
  exact hp.foldl_eq none

/-- C10: `process_chunk` silently skips zero-length lines: a newline byte at
a record boundary produces no table entry and no error — inserting an empty
line anywhere at a record boundary leaves the scan result unchanged, and a
leading newline is skipped outright. -/
theorem process_chunk_skips_empty_lines (pre post : List Nat) (t : Table)
    (h : pre = [] ∨ pre.getLast? = some 10) :
    process_go (pre ++ 10 :: post) t = process_go (pre ++ post) t ∧
    process_go (10 :: post) t = process_go post t := by
  have hskip : ∀ s : Table, process_go (10 :: post) s = process_go post s := by
    intro s
    have hm : memchr 10 (10 :: post) = some 0 := by
      rw [memchr_eq_scan]
      simp [scanIdx]
    rw [process_go_eq_some s hm]
    simp
  constructor
  · rw [process_go_append (10 :: post) pre h t, process_go_append post pre h t]
    cases process_go pre t with
    | none => rfl
    | some u =>
      simp only [Option.some_bind]
      exact hskip u
  · exact hskip t

/-- C8 (amended): a final line lacking the trailing newline is silently
dropped: appending any newline-free tail to a record-aligned prefix leaves
the chunk's table unchanged — only newline-terminated records are ever
aggregated. -/
theorem trailing_record_requires_newline (pre tail : List Nat)
    (h : pre = [] ∨ pre.getLast? = some 10) (h2 : (10 : Nat) ∉ tail) :
    process_chunk (pre ++ tail) = process_chunk pre := by
  have htail : ∀ s : Table, process_go tail s = some s := fun s =>
    process_go_eq_none s (by rw [memchr_eq_scan]; exact scanIdx_eq_none_iff.mpr h2)
  rw [show process_chunk (pre ++ tail) = process_go (pre ++ tail) [] from rfl,
    show process_chunk pre = process_go pre [] from rfl,
    process_go_append tail pre h []]
  cases process_go pre [] with
  | none => rfl
  | some u =>
    simp only [Option.some_bind]
    exact htail u

/-- C8 counterexample: on the input `"X;1.2"` whose final (and only) line
lacks the trailing newline, the record is silently dropped — the resulting
table is empty instead of containing key `"X"`. -/
theorem trailing_record_dropped :
    process_chunk [88, 59, 49, 46, 50] = some [] :=
  process_go_eq_none [] (by rw [memchr_eq_scan]; decide)

/-- C6 (amended): a record with no `';'` field separator makes
`process_line` panic, failing the whole run. -/
theorem process_line_missing_separator_panics (line : List Nat) (stats : Table)
    (h : (59 : Nat) ∉ line) : process_line line stats = none := by
  unfold process_line
  rw [memchr_eq_scan, scanIdx_eq_none_iff.mpr h]

/-- C6 counterexample: the malformed record `"A;ab"` (letters in the value
span) is neither skipped nor an error: the value bytes are run through the
digit-accumulation formula and the bogus value 540 is silently aggregated
into the table. -/
theorem malformed_value_silently_aggregated :
    process_line [65, 59, 97, 98] [] = some [([65], (540, 540, 1, 540))] := by
  unfold process_line
  rw [memchr_eq_scan]
  decide

/-- C2 (code bug): on the buffer `"ab"` (no trailing newline) with
approximate chunk size 1, the boundary scan finds no newline after the
approximate boundary, the source computes `actual_end = data.len() + 1`,
and the slice `&data[start..actual_end]` panics — `split_at_newlines`
returns no chunk list at all instead of a partition of the buffer. -/
theorem split_at_newlines_panics_ab : split_at_newlines [97, 98] 1 = none := by
  rw [split_at_newlines, split_go]
  norm_num [memchr_eq_scan, scanIdx]

/-- C3 (code bug): on the buffer `"hi"` (no trailing newline) with
approximate chunk size 1, `split_at_newlines` panics instead of producing a
last chunk ending exactly at end-of-buffer. -/
theorem split_at_newlines_panics_hi : split_at_newlines [104, 105] 1 = none := by
  rw [split_at_newlines, split_go]
  norm_num [memchr_eq_scan, scanIdx]

theorem wrap16_eq_self {x : Int} (h1 : -32768 ≤ x) (h2 : x < 32768) : wrap16 x = x := by
  unfold wrap16
  omega

theorem parseLoop_cons_digit (b : Nat) (rest : List Nat) (v : Int) (h : ¬ b = 46) :
    parseLoop (b :: rest) v =
      parseLoop rest (wrap16 (wrap16 (v * 10) + (((b + 208) % 256 : Nat) : Int))) := by
  simp [parseLoop, h]

theorem parseLoop_cons_dot (rest : List Nat) (v : Int) :
    parseLoop (46 :: rest) v = parseLoop rest v := by
  simp [parseLoop]

theorem parseLoopInt_cons_digit (b : Nat) (rest : List Nat) (v : Int) (h : ¬ b = 46) :
    parseLoopInt (b :: rest) v =
      parseLoopInt rest (v * 10 + (((b + 208) % 256 : Nat) : Int)) := by
  simp [parseLoopInt, h]

theorem parseLoopInt_cons_dot (rest : List Nat) (v : Int) :
    parseLoopInt (46 :: rest) v = parseLoopInt rest v := by
  simp [parseLoopInt]

theorem parseLoop3 (a c : Nat) (ha1 : 48 ≤ a) (ha2 : a ≤ 57) (hc1 : 48 ≤ c) (hc2 : c ≤ 57) :
    parseLoop (a :: 46 :: c :: []) 0 = (a : Int) * 10 + (c : Int) - 528 ∧
    parseLoopInt (a :: 46 :: c :: []) 0 = (a : Int) * 10 + (c : Int) - 528 := by
  have ha46 : ¬ (a = 46) := by omega
  have hc46 : ¬ (c = 46) := by omega
  have v1 : wrap16 (wrap16 ((0 : Int) * 10) + (((a + 208) % 256 : Nat) : Int)) =
      (a : Int) - 48 := by
    unfold wrap16
    omega
  have v2 : wrap16 (wrap16 (((a : Int) - 48) * 10) + (((c + 208) % 256 : Nat) : Int)) =
      (a : Int) * 10 + (c : Int) - 528 := by
    unfold wrap16
    omega
  have w1 : (0 : Int) * 10 + (((a + 208) % 256 : Nat) : Int) = (a : Int) - 48 := by omega
  have w2 : ((a : Int) - 48) * 10 + (((c + 208) % 256 : Nat) : Int) =
      (a : Int) * 10 + (c : Int) - 528 := by omega
  constructor
  · rw [parseLoop_cons_digit a _ 0 ha46, v1, parseLoop_cons_dot,
      parseLoop_cons_digit c _ _ hc46, v2]
    rfl
  · rw [parseLoopInt_cons_digit a _ 0 ha46, w1, parseLoopInt_cons_dot,
      parseLoopInt_cons_digit c _ _ hc46, w2]
    rfl

theorem parseLoop4 (a b c : Nat) (ha1 : 48 ≤ a) (ha2 : a ≤ 57) (hb1 : 48 ≤ b)
    (hb2 : b ≤ 57) (hc1 : 48 ≤ c) (hc2 : c ≤ 57) :
    parseLoop (a :: b :: 46 :: c :: []) 0 =
      (a : Int) * 100 + (b : Int) * 10 + (c : Int) - 5328 ∧
    parseLoopInt (a :: b :: 46 :: c :: []) 0 =
      (a : Int) * 100 + (b : Int) * 10 + (c : Int) - 5328 := by
  have ha46 : ¬ (a = 46) := by omega
  have hb46 : ¬ (b = 46) := by omega
  have hc46 : ¬ (c = 46) := by omega
  have v1 : wrap16 (wrap16 ((0 : Int) * 10) + (((a + 208) % 256 : Nat) : Int)) =
      (a : Int) - 48 := by
    unfold wrap16
    omega
  have v2 : wrap16 (wrap16 (((a : Int) - 48) * 10) + (((b + 208) % 256 : Nat) : Int)) =
      (a : Int) * 10 + (b : Int) - 528 := by
    unfold wrap16
    omega
  have v3 : wrap16 (wrap16 (((a : Int) * 10 + (b : Int) - 528) * 10) +
      (((c + 208) % 256 : Nat) : Int)) =
      (a : Int) * 100 + (b : Int) * 10 + (c : Int) - 5328 := by
    unfold wrap16
    omega
  have w1 : (0 : Int) * 10 + (((a + 208) % 256 : Nat) : Int) = (a : Int) - 48 := by omega
  have w2 : ((a : Int) - 48) * 10 + (((b + 208) % 256 : Nat) : Int) =
      (a : Int) * 10 + (b : Int) - 528 := by omega
  have w3 : ((a : Int) * 10 + (b : Int) - 528) * 10 + (((c + 208) % 256 : Nat) : Int) =
      (a : Int) * 100 + (b : Int) * 10 + (c : Int) - 5328 := by omega
  constructor
  · rw [parseLoop_cons_digit a _ 0 ha46, v1, parseLoop_cons_digit b _ _ hb46, v2,
      parseLoop_cons_dot, parseLoop_cons_digit c _ _ hc46, v3]
    rfl
  · rw [parseLoopInt_cons_digit a _ 0 ha46, w1, parseLoopInt_cons_digit b _ _ hb46, w2,
      parseLoopInt_cons_dot, parseLoopInt_cons_digit c _ _ hc46, w3]
    rfl

/-- C5: on every well-formed value span (optional leading minus, one or two
integer digits, a dot, exactly one fractional digit) `parse_temp_fast`
returns the decimal value multiplied by ten; the `i16` accumulation agrees
with unbounded integer arithmetic (no overflow ever occurs), and the result
lies within ±999, inside the signed 16-bit range. -/
theorem parse_temp_fast_wellformed (t : List Nat) (h : wellFormedTemp t = true) :
    parse_temp_fast t = some (tempScaled t) ∧
    parse_temp_int t = some (tempScaled t) ∧
    -999 ≤ tempScaled t ∧ tempScaled t ≤ 999 := by
  cases t with
  | nil => simp [wellFormedTemp] at h
  | cons b0 rest =>
    simp only [wellFormedTemp] at h
    by_cases h45 : b0 = 45
    · subst h45
      rw [if_pos rfl] at h
      cases rest with
      | nil => simp [wellFormedCore] at h
      | cons a r1 =>
        cases r1 with
        | nil => simp [wellFormedCore] at h
        | cons d r2 =>
          cases r2 with
          | nil => simp [wellFormedCore] at h
          | cons c r3 =>
            cases r3 with
            | nil =>
              simp only [wellFormedCore, isDigit, Bool.and_eq_true, beq_iff_eq,
                decide_eq_true_eq] at h
              obtain ⟨⟨⟨ha1, ha2⟩, hd⟩, hc1, hc2⟩ := h
              subst hd
              have hp := parseLoop3 a c ha1 ha2 hc1 hc2
              have e1 : parse_temp_fast (45 :: a :: 46 :: c :: []) =
                  some (wrap16 (parseLoop (a :: 46 :: c :: []) 0 * (-1))) := rfl
              have e2 : parse_temp_int (45 :: a :: 46 :: c :: []) =
                  some (parseLoopInt (a :: 46 :: c :: []) 0 * (-1)) := rfl
              have e3 : tempScaled (45 :: a :: 46 :: c :: []) =
                  -(dv a * 10 + dv c) := rfl
              rw [e1, e2, e3, hp.1, hp.2]
              refine ⟨?_, ?_, ?_, ?_⟩
              · rw [wrap16_eq_self (by omega) (by omega)]
                simp only [Option.some.injEq, dv]
                omega
              · simp only [Option.some.injEq, dv]
                omega
              · simp only [dv]
                omega
              · simp only [dv]
                omega
            | cons e r4 =>
              cases r4 with
              | nil =>
                simp only [wellFormedCore, isDigit, Bool.and_eq_true, beq_iff_eq,
                  decide_eq_true_eq] at h
                obtain ⟨⟨⟨⟨ha1, ha2⟩, hd1, hd2⟩, hd⟩, hc1, hc2⟩ := h
                subst hd
                have hp := parseLoop4 a d e ha1 ha2 hd1 hd2 hc1 hc2
                have e1 : parse_temp_fast (45 :: a :: d :: 46 :: e :: []) =
                    some (wrap16 (parseLoop (a :: d :: 46 :: e :: []) 0 * (-1))) := rfl
                have e2 : parse_temp_int (45 :: a :: d :: 46 :: e :: []) =
                    some (parseLoopInt (a :: d :: 46 :: e :: []) 0 * (-1)) := rfl
                have e3 : tempScaled (45 :: a :: d :: 46 :: e :: []) =
                    -((dv a * 10 + dv d) * 10 + dv e) := rfl
                rw [e1, e2, e3, hp.1, hp.2]
                refine ⟨?_, ?_, ?_, ?_⟩
                · rw [wrap16_eq_self (by omega) (by omega)]
                  simp only [Option.some.injEq, dv]
                  omega
                · simp only [Option.some.injEq, dv]
                  omega
                · simp only [dv]
                  omega
                · simp only [dv]
                  omega
              | cons f r5 => simp [wellFormedCore] at h
    · rw [if_neg h45] at h
      cases rest with
      | nil => simp [wellFormedCore] at h
      | cons d r1 =>
        cases r1 with
        | nil => simp [wellFormedCore] at h
        | cons c r2 =>
          cases r2 with
          | nil =>
            simp only [wellFormedCore, isDigit, Bool.and_eq_true, beq_iff_eq,
              decide_eq_true_eq] at h
            obtain ⟨⟨⟨hb1, hb2⟩, hd⟩, hc1, hc2⟩ := h
            subst hd
            have hp := parseLoop3 b0 c hb1 hb2 hc1 hc2
            have e1 : parse_temp_fast (b0 :: 46 :: c :: []) =
                some (wrap16 (parseLoop (b0 :: 46 :: c :: []) 0 * 1)) := by
              simp only [parse_temp_fast, if_neg h45]
            have e2 : parse_temp_int (b0 :: 46 :: c :: []) =
                some (parseLoopInt (b0 :: 46 :: c :: []) 0 * 1) := by
              simp only [parse_temp_int, if_neg h45]
            have e3 : tempScaled (b0 :: 46 :: c :: []) = dv b0 * 10 + dv c := by
              simp only [tempScaled, if_neg h45, tempScaledCore]
            rw [e1, e2, e3, hp.1, hp.2]
            refine ⟨?_, ?_, ?_, ?_⟩
            · rw [mul_one, wrap16_eq_self (by omega) (by omega)]
              simp only [Option.some.injEq, dv]
              omega
            · rw [mul_one]
              simp only [Option.some.injEq, dv]
              omega
            · simp only [dv]
              omega
            · simp only [dv]
              omega
          | cons e r3 =>
            cases r3 with
            | nil =>
              simp only [wellFormedCore, isDigit, Bool.and_eq_true, beq_iff_eq,
                decide_eq_true_eq] at h
              obtain ⟨⟨⟨⟨hb1, hb2⟩, hd1, hd2⟩, hd⟩, hc1, hc2⟩ := h
              subst hd
              have hp := parseLoop4 b0 d e hb1 hb2 hd1 hd2 hc1 hc2
              have e1 : parse_temp_fast (b0 :: d :: 46 :: e :: []) =
                  some (wrap16 (parseLoop (b0 :: d :: 46 :: e :: []) 0 * 1)) := by
                simp only [parse_temp_fast, if_neg h45]
              have e2 : parse_temp_int (b0 :: d :: 46 :: e :: []) =
                  some (parseLoopInt (b0 :: d :: 46 :: e :: []) 0 * 1) := by
                simp only [parse_temp_int, if_neg h45]
              have e3 : tempScaled (b0 :: d :: 46 :: e :: []) =
                  (dv b0 * 10 + dv d) * 10 + dv e := by
                simp only [tempScaled, if_neg h45, tempScaledCore]
              rw [e1, e2, e3, hp.1, hp.2]
              refine ⟨?_, ?_, ?_, ?_⟩
              · rw [mul_one, wrap16_eq_self (by omega) (by omega)]
                simp only [Option.some.injEq, dv]
                omega
              · rw [mul_one]
                simp only [Option.some.injEq, dv]
                omega
              · simp only [dv]
                omega
              · simp only [dv]
                omega
            | cons f r4 => simp [wellFormedCore] at h

theorem recordsOf_process (data : List Nat) :
    ∀ t : Table, process_go data t =
      (recordsOf data).map (fun rs => rs.foldl (fun acc r => updTable acc r.1 r.2) t) := by
  have H : ∀ n (data : List Nat), data.length ≤ n → ∀ t,
      process_go data t =
        (recordsOf data).map (fun rs => rs.foldl (fun acc r => updTable acc r.1 r.2) t) := by
    intro n
    induction n with
    | zero =>
      intro data hlen t
      have hd : data = [] := List.length_eq_zero.mp (by omega)
      subst hd
      rw [process_go_empty, recordsOf_eq_none (by rw [memchr_eq_scan]; rfl)]
      rfl
    | succ n ih =>
      intro data hlen t
      cases hm : memchr 10 data with
      | none =>
        rw [process_go_eq_none t hm, recordsOf_eq_none hm]
        rfl
      | some j =>
        have hjb : j < data.length := scanIdx_bound (by rw [← memchr_eq_scan]; exact hm)
        have hlen' : (data.drop (j + 1)).length ≤ n := by simp [List.length_drop]; omega
        rw [process_go_eq_some t hm, recordsOf_eq_some hm]
        by_cases hj : 0 < j
        · rw [if_pos hj, if_pos hj, process_line_eq]
          cases hp : parseRecord (data.take j) with
          | none => rfl
          | some r =>
            simp only [Option.map_some', Option.some_bind]
            rw [ih _ hlen' (updTable t r.1 r.2)]
            cases recordsOf (data.drop (j + 1)) with
            | none => rfl
            | some rs => simp
        · rw [if_neg hj, if_neg hj]
          simp only [Option.some_bind]
          exact ih _ hlen' t
  exact fun t => H data.length data le_rfl t

theorem valuesFor_cons (k0 : Key) (v : Int) (rs : List (Key × Int)) (k : Key) :
    valuesFor ((k0, v) :: rs) k =
      if k0 = k then v :: valuesFor rs k else valuesFor rs k := by
  simp only [valuesFor, List.filter_cons]
  by_cases h : k0 = k <;> simp [h]

theorem tlookup_foldl_upd (rs : List (Key × Int)) :
    ∀ (t : Table) (k : Key),
      tlookup (rs.foldl (fun acc r => updTable acc r.1 r.2) t) k =
        (valuesFor rs k).foldl obsStep (tlookup t k) := by
  induction rs with
  | nil => intro t k; rfl
  | cons r rest ih =>
    intro t k
    obtain ⟨k0, v⟩ := r
    simp only [List.foldl_cons]
    rw [ih (updTable t k0 v) k, tlookup_updTable, valuesFor_cons]
    by_cases h : k0 = k
    · subst h
      simp [List.foldl_cons]
    · rw [if_neg h, if_neg h]

theorem foldl_obsStep_some (vs : List Int) :
    ∀ s : Stats, vs.foldl obsStep (some s) = some (vs.foldl observe s) := by
  induction vs with
  | nil => intro s; rfl
  | cons v rest ih =>
    intro s
    simp only [List.foldl_cons]
    rw [show obsStep (some s) v = some (observe s v) from rfl]
    exact ih (observe s v)

theorem foldl_obsStep_none (vs : List Int) :
    vs.foldl obsStep none = statsOfList vs := by
  cases vs with
  | nil => rfl
  | cons v rest =>
    simp only [List.foldl_cons, statsOfList]
    rw [show obsStep none v = some (single v) from rfl]
    exact foldl_obsStep_some rest (single v)

theorem foldl_observe_inv (vs : List Int) :
    ∀ s0 : Stats,
      (vs.foldl observe s0).2.2.1 = s0.2.2.1 + vs.length ∧
      (vs.foldl observe s0).1 ≤ s0.1 ∧
      s0.2.2.2 ≤ (vs.foldl observe s0).2.2.2 ∧
      ∀ v ∈ vs, (vs.foldl observe s0).1 ≤ v ∧ v ≤ (vs.foldl observe s0).2.2.2 := by
  induction vs with
  | nil =>
    intro s0
    exact ⟨by simp, le_refl _, le_refl _, by simp⟩
  | cons v rest ih =>
    intro s0
    simp only [List.foldl_cons, List.length_cons, List.mem_cons]
    obtain ⟨h1, h2, h3, h4⟩ := ih (observe s0 v)
    refine ⟨?_, ?_, ?_, ?_⟩
    · rw [h1]
      simp only [observe]
      omega
    · exact le_trans h2 (min_le_left _ _)
    · exact le_trans (le_max_left _ _) h3
    · intro u hu
      rcases hu with h | h
      · subst h
        exact ⟨le_trans h2 (min_le_right _ _), le_trans (le_max_right _ _) h3⟩
      · exact h4 u h

/-- C9: for every chunk whose scan succeeds with record sequence `rs`, the
table returned by `process_chunk` maps each key to exactly the statistics of
the values observed for it: the first occurrence contributes `(v, v, 1, v)`
and every later occurrence folds in as `(min(min,v), sum+v, count+1,
max(max,v))` (this is `statsOfList`); consequently every entry satisfies
`min ≤ v ≤ max` for each observed value `v` and `count` equals the number of
observations, hence `count ≥ 1`. -/
theorem process_chunk_table_statistics (data : List Nat) (rs : List (Key × Int))
    (h : recordsOf data = some rs) :
    ∃ t, process_chunk data = some t ∧
      (∀ k, tlookup t k = statsOfList (valuesFor rs k)) ∧
      (∀ k s, tlookup t k = some s →
        s.2.2.1 = (valuesFor rs k).length ∧ 1 ≤ s.2.2.1 ∧
        ∀ v ∈ valuesFor rs k, s.1 ≤ v ∧ v ≤ s.2.2.2) := by
  refine ⟨rs.foldl (fun acc r => updTable acc r.1 r.2) [], ?_, ?_, ?_⟩
  · rw [show process_chunk data = process_go data [] from rfl, recordsOf_process data [], h]
    rfl
  · intro k
    rw [tlookup_foldl_upd rs [] k, show tlookup ([] : Table) k = none from rfl,
      foldl_obsStep_none]
  · intro k s hs
    rw [tlookup_foldl_upd rs [] k, show tlookup ([] : Table) k = none from rfl,
      foldl_obsStep_none] at hs
    cases hvals : valuesFor rs k with
    | nil =>
      rw [hvals] at hs
      simp [statsOfList] at hs
    | cons v vs =>
      rw [hvals] at hs
      simp only [statsOfList, Option.some.injEq] at hs
      subst hs
      obtain ⟨h1, h2, h3, h4⟩ := foldl_observe_inv vs (single v)
      refine ⟨?_, ?_, ?_⟩
      · rw [h1]
        simp [single]
        omega
      · rw [h1]
        simp [single]
      · intro u hu
        rcases List.mem_cons.mp hu with hh | hh
        · subst hh
          refine ⟨le_trans h2 ?_, le_trans ?_ h3⟩
          · simp [single]
          · simp [single]
        · exact h4 u hh

/-- Witness for C1 at a concrete two-chunk partition of
`"H;1.2\nB;2.0\n"`. -/
theorem partition_independence_witness :
    runEquiv (runChunks [[72, 59, 49, 46, 50, 10], [66, 59, 50, 46, 48, 10]])
      (process_chunk
        (([[72, 59, 49, 46, 50, 10], [66, 59, 50, 46, 48, 10]] : List (List Nat)).flatten)) :=
  partition_independence [[72, 59, 49, 46, 50, 10], [66, 59, 50, 46, 48, 10]]
    ⟨Or.inr rfl, trivial⟩

/-- Witness for C7 at a concrete two-table tree reduced in swapped order. -/
theorem merge_reduction_order_independent_witness :
    TableEquiv
      (MergeTree.node (MergeTree.leaf [([66], ((2 : Int), (2 : Int), 1, (2 : Int)))])
        (MergeTree.leaf [([65], ((1 : Int), (1 : Int), 1, (1 : Int)))])).reduce
      (mergeAll [[([65], ((1 : Int), (1 : Int), 1, (1 : Int)))],
        [([66], ((2 : Int), (2 : Int), 1, (2 : Int)))]]) :=
  merge_reduction_order_independent _ _ (by decide) (by decide)

/-- Witness for C10: inserting an empty line after the record `"B;1.0\n"`
does not change the scan result. -/
theorem process_chunk_skips_empty_lines_witness :
    process_go ([66, 59, 49, 46, 48, 10] ++ 10 :: [65, 59, 50, 46, 48, 10]) [] =
      process_go ([66, 59, 49, 46, 48, 10] ++ [65, 59, 50, 46, 48, 10]) [] ∧
    process_go (10 :: [65, 59, 50, 46, 48, 10]) [] =
      process_go [65, 59, 50, 46, 48, 10] [] :=
  process_chunk_skips_empty_lines [66, 59, 49, 46, 48, 10] [65, 59, 50, 46, 48, 10] []
    (Or.inr rfl)

/-- Witness for the amended C8 at the record `"B;1.0\n"` followed by the
newline-free tail `"X;1.2"`. -/
theorem trailing_record_requires_newline_witness :
    process_chunk ([66, 59, 49, 46, 48, 10] ++ [88, 59, 49, 46, 50]) =
      process_chunk [66, 59, 49, 46, 48, 10] :=
  trailing_record_requires_newline [66, 59, 49, 46, 48, 10] [88, 59, 49, 46, 50]
    (Or.inr rfl) (by decide)

/-- Witness for the amended C6 at the separator-free line `"Aa"`. -/
theorem process_line_missing_separator_panics_witness :
    process_line [65, 97] [] = none :=
  process_line_missing_separator_panics [65, 97] [] (by decide)

/-- Witness for C5 at the span `"-12.3"`, whose scaled value is `-123`. -/
theorem parse_temp_fast_wellformed_witness :
    (parse_temp_fast [45, 49, 50, 46, 51] = some (tempScaled [45, 49, 50, 46, 51]) ∧
      parse_temp_int [45, 49, 50, 46, 51] = some (tempScaled [45, 49, 50, 46, 51]) ∧
      -999 ≤ tempScaled [45, 49, 50, 46, 51] ∧ tempScaled [45, 49, 50, 46, 51] ≤ 999) ∧
    tempScaled [45, 49, 50, 46, 51] = -123 :=
  ⟨parse_temp_fast_wellformed [45, 49, 50, 46, 51] (by decide), by decide⟩

/-- Witness for C9 at the one-record chunk `"B;1.0\n"`. -/
theorem process_chunk_table_statistics_witness :
    ∃ t, process_chunk [66, 59, 49, 46, 48, 10] = some t ∧
      (∀ k, tlookup t k = statsOfList (valuesFor [([66], (10 : Int))] k)) ∧
      (∀ k s, tlookup t k = some s →
        s.2.2.1 = (valuesFor [([66], (10 : Int))] k).length ∧ 1 ≤ s.2.2.1 ∧
        ∀ v ∈ valuesFor [([66], (10 : Int))] k, s.1 ≤ v ∧ v ≤ s.2.2.2) :=
  process_chunk_table_statistics [66, 59, 49, 46, 48, 10] [([66], 10)] (by
    have h5 : memchr 10 [66, 59, 49, 46, 48, 10] = some 5 := by
      rw [memchr_eq_scan]
      decide
    have hrec0 : recordsOf ([] : List Nat) = some [] :=
      recordsOf_eq_none (by rw [memchr_eq_scan]; rfl)
    have hpr : parseRecord [66, 59, 49, 46, 48] = some ([66], 10) := by
      unfold parseRecord
      rw [memchr_eq_scan]
      decide
    rw [recordsOf_eq_some h5, if_pos (by norm_num : (0 : Nat) < 5),
      show List.take 5 [66, 59, 49, 46, 48, 10] = [66, 59, 49, 46, 48] from rfl,
      show List.drop 6 [66, 59, 49, 46, 48, 10] = [] from rfl, hrec0, hpr]
    rfl)
